import Mathlib

/-!
Verification of the NSU course-finder scheduling engine against its
specification.  The repository ships the React front-end under
`src/frontend`; the Python engine (`filters.py`, `scheduler.py`) is not
part of the source tree, so the engine definitions below are modelled
from the specification text, while the front-end functions
(`validateForm`, `handleSubmit`, `toggleFavorite`) are translated
directly from the JavaScript source.
-/

namespace CourseFinder

/-- Day symbols used by the catalog: Sun, Mon, Tue, Wed, Thu plus a sixth
symbol `A`. -/
inductive Day where
  | S | M | T | W | R | A
deriving DecidableEq, Repr

/-- Section kind: lecture or lab, derived from the course-code suffix. -/
inductive Kind where
  | LECTURE | LAB
deriving DecidableEq, Repr

/-- Modelled from the spec: one offered class meeting (spec §3, Section).
Times are minutes after midnight. -/
structure Section where
  course_code : String
  section_number : String
  kind : Kind
  instructor : String
  days : Finset Day
  start_time : Nat
  end_time : Nat
  room : String
  seats_available : Nat
deriving DecidableEq

/-- Modelled from the spec: per-course instructor rule
(allowed instructors and allowed section numbers; empty section list =
unconstrained section number). -/
structure InstructorRule where
  allowed_instructors : List String
  allowed_sections : List String
deriving DecidableEq

/-- Modelled from the spec: the active rule set for one generation run
(spec §3, ConstraintConfiguration). -/
structure Config where
  required_courses : List String
  min_start_time : Nat
  allowed_day_patterns : List (Finset Day)
  paired_course_rules : List (String × String)
  instructor_rules : List (String × InstructorRule)
  max_distinct_days : Nat
  exclude_evening : Bool
  evening_threshold : Nat
  forbidden_day : Day
  forbidden_lab_start_time : Nat
deriving DecidableEq

/-- Modelled from the spec: the pairwise conflict predicate (spec §4.1):
two sections conflict when they share at least one day and their
half-open `[start, end)` intervals overlap. -/
def conflicts (a b : Section) : Bool :=
  decide ((a.days ∩ b.days).Nonempty) &&
  decide (a.start_time < b.end_time) &&
  decide (b.start_time < a.end_time)

theorem conflicts_iff (a b : Section) :
    conflicts a b = true ↔
      (a.days ∩ b.days).Nonempty ∧
      a.start_time < b.end_time ∧ b.start_time < a.end_time := by
  simp [conflicts, and_assoc]

theorem conflicts_symm (a b : Section) : conflicts a b = conflicts b a := by
  cases h : conflicts b a with
  | true =>
    rcases (conflicts_iff b a).mp h with ⟨hd, h1, h2⟩
    exact (conflicts_iff a b).mpr ⟨by rwa [Finset.inter_comm], h2, h1⟩
  | false =>
    cases hab : conflicts a b with
    | false => rfl
    | true =>
      rcases (conflicts_iff a b).mp hab with ⟨hd, h1, h2⟩
      have hba : conflicts b a = true :=
        (conflicts_iff b a).mpr ⟨by rwa [Finset.inter_comm], h2, h1⟩
      rw [h] at hba
      exact absurd hba (by simp)

/-- C1: the pairwise conflict predicate returns true iff the two sections
share a day and their half-open time intervals overlap; it is symmetric,
and back-to-back sections (`endA = startB`) on a shared day do not
conflict. -/
theorem conflicts_spec (a b : Section) :
    (conflicts a b = true ↔
      (a.days ∩ b.days).Nonempty ∧
      a.start_time < b.end_time ∧ b.start_time < a.end_time) ∧
    conflicts a b = conflicts b a ∧
    ((a.days ∩ b.days).Nonempty → a.end_time = b.start_time →
      conflicts a b = false) := by
  refine ⟨conflicts_iff a b, conflicts_symm a b, ?_⟩
  intro _ hbb
  cases h : conflicts a b with
  | false => rfl
  | true =>
    rcases (conflicts_iff a b).mp h with ⟨_, _, h2⟩
    omega

/-- Concrete witness for C1: sections back-to-back on a shared day. -/
def wSecA : Section :=
  { course_code := "CSE327", section_number := "1", kind := Kind.LECTURE,
    instructor := "NBM", days := {Day.S, Day.T}, start_time := 660,
    end_time := 750, room := "NAC206", seats_available := 5 }

/-- Concrete witness for C1: second section starting when `wSecA` ends. -/
def wSecB : Section :=
  { course_code := "BIO103", section_number := "2", kind := Kind.LECTURE,
    instructor := "AhU", days := {Day.S, Day.T}, start_time := 750,
    end_time := 840, room := "NAC309", seats_available := 3 }

theorem conflicts_spec_witness : conflicts wSecA wSecB = false :=
  (conflicts_spec wSecA wSecB).2.2 (by decide) (by decide)

/-- Modelled from the spec: unary filter over a single section
(spec §4.1, unary checks), all of which must pass: seats, optional
evening exclusion, lecture time/day-pattern rules, lab forbidden-day and
forbidden-start rules, and the optional per-course instructor rule. -/
def unaryOk (cfg : Config) (s : Section) : Bool :=
  decide (0 < s.seats_available) &&
  (!cfg.exclude_evening || decide (s.start_time < cfg.evening_threshold)) &&
  (match s.kind with
    | Kind.LECTURE =>
        decide (cfg.min_start_time ≤ s.start_time) &&
        decide (s.days ∈ cfg.allowed_day_patterns)
    | Kind.LAB =>
        !(decide (cfg.forbidden_day ∈ s.days)) &&
        !(decide (s.start_time = cfg.forbidden_lab_start_time))) &&
  (match cfg.instructor_rules.lookup s.course_code with
    | none => true
    | some r =>
        decide (s.instructor ∈ r.allowed_instructors) &&
        (r.allowed_sections.isEmpty ||
         decide (s.section_number ∈ r.allowed_sections)))

/-- C4: the unary filter accepts a section iff seats are available, the
evening rule (when enabled), the kind-specific lecture/lab rules, and
the instructor rule for its course (when one exists) all hold. -/
theorem unaryOk_spec (cfg : Config) (s : Section) :
    unaryOk cfg s = true ↔
      0 < s.seats_available ∧
      (cfg.exclude_evening = true → s.start_time < cfg.evening_threshold) ∧
      (s.kind = Kind.LECTURE →
        cfg.min_start_time ≤ s.start_time ∧
        s.days ∈ cfg.allowed_day_patterns) ∧
      (s.kind = Kind.LAB →
        cfg.forbidden_day ∉ s.days ∧
        s.start_time ≠ cfg.forbidden_lab_start_time) ∧
      (∀ r, cfg.instructor_rules.lookup s.course_code = some r →
        s.instructor ∈ r.allowed_instructors ∧
        (s.section_number ∈ r.allowed_sections ∨ r.allowed_sections = [])) := by
  cases hk : s.kind <;>
    cases hr : cfg.instructor_rules.lookup s.course_code <;>
      cases he : cfg.exclude_evening <;>
        simp [unaryOk, hk, hr, he, List.isEmpty_iff, and_assoc, or_comm]

/-- Modelled from the spec: the paired-course rule (spec §4.1, pairwise
checks): for each configured (lecture, lab) pair whose two courses both
appear among the two sections, the section numbers must match. -/
def pairingOk (cfg : Config) (a b : Section) : Bool :=
  cfg.paired_course_rules.all (fun p =>
    if (a.course_code = p.1 ∧ b.course_code = p.2) ∨
       (a.course_code = p.2 ∧ b.course_code = p.1)
    then a.section_number == b.section_number
    else true)

/-- Modelled from the spec: two already-chosen sections are mutually
legal when they do not conflict and every pairing rule holds. -/
def compatible (cfg : Config) (a b : Section) : Bool :=
  !(conflicts a b) && pairingOk cfg a b

theorem pairingOk_symm (cfg : Config) (a b : Section) :
    pairingOk cfg a b = pairingOk cfg b a := by
  unfold pairingOk
  congr 1
  funext p
  by_cases h : (a.course_code = p.1 ∧ b.course_code = p.2) ∨
      (a.course_code = p.2 ∧ b.course_code = p.1)
  · have h' : (b.course_code = p.1 ∧ a.course_code = p.2) ∨
        (b.course_code = p.2 ∧ a.course_code = p.1) := by tauto
    rw [if_pos h, if_pos h']
    simp [beq_iff_eq, eq_comm]
  · have h' : ¬((b.course_code = p.1 ∧ a.course_code = p.2) ∨
        (b.course_code = p.2 ∧ a.course_code = p.1)) := by tauto
    rw [if_neg h, if_neg h']

theorem compatible_symm (cfg : Config) (a b : Section) :
    compatible cfg a b = compatible cfg b a := by
  simp [compatible, conflicts_symm a b, pairingOk_symm cfg a b]

/-- Modelled from the spec: a candidate section is pairwise-checked
against every section already in the partial assignment (spec §4.2
step 3). -/
def pairwiseOk (cfg : Config) (s : Section) (chosen : List Section) : Bool :=
  chosen.all (fun t => compatible cfg s t)

/-- Modelled from the spec: the union of the day sets of the chosen
sections (spec §3, `max_distinct_days`). -/
def daysUnion (l : List Section) : Finset Day :=
  l.foldr (fun s acc => s.days ∪ acc) ∅

theorem mem_daysUnion {d : Day} {l : List Section} :
    d ∈ daysUnion l ↔ ∃ s ∈ l, d ∈ s.days := by
  induction l with
  | nil => simp [daysUnion]
  | cons s t ih =>
    simp only [daysUnion, List.foldr_cons, Finset.mem_union,
      List.mem_cons] at ih ⊢
    rw [ih]
    constructor
    · rintro (hd | ⟨s', hs', hds'⟩)
      · exact ⟨s, Or.inl rfl, hd⟩
      · exact ⟨s', Or.inr hs', hds'⟩
    · rintro ⟨s', rfl | hs', hds'⟩
      · exact Or.inl hds'
      · exact Or.inr ⟨s', hs', hds'⟩

theorem daysUnion_subset_of_sublist {l₁ l₂ : List Section}
    (h : ∀ s ∈ l₁, s ∈ l₂) : daysUnion l₁ ⊆ daysUnion l₂ := by
  intro d hd
  rcases mem_daysUnion.mp hd with ⟨s, hs, hds⟩
  exact mem_daysUnion.mpr ⟨s, h s hs, hds⟩

/-- Modelled from the spec: the day-count invariant check (spec §4.2
step 4). -/
def dayCountOk (cfg : Config) (l : List Section) : Bool :=
  decide ((daysUnion l).card ≤ cfg.max_distinct_days)

/-- Modelled from the spec: the backtracking enumerator (spec §4.2).
Given the per-course candidate lists in processing order, it visits
every partial assignment reachable by legal extensions and returns the
list of all visited assignments; an assignment whose length equals the
number of course groups is a complete schedule.  Each extension is
pairwise-checked against the sections already chosen and pruned by the
day-count invariant. -/
def searchNodes (cfg : Config) (groups : List (List Section))
    (chosen : List Section) : List (List Section) :=
  match groups with
  | [] => [chosen]
  | g :: rest =>
      chosen ::
        (g.filter (fun s =>
            pairwiseOk cfg s chosen && dayCountOk cfg (chosen ++ [s]))).flatMap
          (fun s => searchNodes cfg rest (chosen ++ [s]))

/-- The search invariant: the partial assignment is pairwise compatible
and satisfies the day-count bound. -/
def Inv (cfg : Config) (l : List Section) : Prop :=
  l.Pairwise (fun a b => compatible cfg a b = true) ∧
  (daysUnion l).card ≤ cfg.max_distinct_days

theorem searchNodes_inv (cfg : Config) (groups : List (List Section)) :
    ∀ chosen, Inv cfg chosen →
      ∀ res ∈ searchNodes cfg groups chosen, Inv cfg res := by
  induction groups with
  | nil =>
    intro chosen hInv res hres
    simp [searchNodes] at hres
    exact hres ▸ hInv
  | cons g rest ih =>
    intro chosen hInv res hres
    simp only [searchNodes, List.mem_cons, List.mem_flatMap,
      List.mem_filter, Bool.and_eq_true] at hres
    rcases hres with rfl | ⟨s, ⟨hsg, hpw, hdc⟩, hres⟩
    · exact hInv
    · refine ih (chosen ++ [s]) ⟨?_, ?_⟩ res hres
      · rw [List.pairwise_append]
        refine ⟨hInv.1, by simp, ?_⟩
        intro a ha b hb
        simp at hb
        subst hb
        have := (List.all_eq_true.mp hpw) a ha
        rwa [compatible_symm] at this
      · simpa [dayCountOk] using hdc

/-- Every node visited by the search extends the initial assignment by
sections drawn, in order, from a prefix of the course groups. -/
theorem searchNodes_shape (cfg : Config) (groups : List (List Section)) :
    ∀ chosen, ∀ res ∈ searchNodes cfg groups chosen,
      ∃ ext gs rest, groups = gs ++ rest ∧ res = chosen ++ ext ∧
        List.Forall₂ (fun s g => s ∈ g) ext gs := by
  induction groups with
  | nil =>
    intro chosen res hres
    simp [searchNodes] at hres
    exact ⟨[], [], [], rfl, by simp [hres], List.Forall₂.nil⟩
  | cons g rest ih =>
    intro chosen res hres
    simp only [searchNodes, List.mem_cons, List.mem_flatMap,
      List.mem_filter, Bool.and_eq_true] at hres
    rcases hres with rfl | ⟨s, ⟨hsg, _, _⟩, hres⟩
    · exact ⟨[], [], g :: rest, rfl, by simp, List.Forall₂.nil⟩
    · rcases ih (chosen ++ [s]) res hres with ⟨ext, gs, rest', hgr, hre, hf⟩
      exact ⟨s :: ext, g :: gs, rest', by simp [hgr], by simp [hre],
        List.Forall₂.cons hsg hf⟩

/-- Completeness of the enumeration: any extension of the current
assignment that selects one legal section per remaining group and keeps
the whole assignment valid is visited by the search. -/
theorem searchNodes_complete (cfg : Config) :
    ∀ (ext : List Section) (groups : List (List Section))
      (chosen : List Section),
      List.Forall₂ (fun s g => s ∈ g) ext groups →
      Inv cfg (chosen ++ ext) →
      (chosen ++ ext) ∈ searchNodes cfg groups chosen := by
  intro ext
  induction ext with
  | nil =>
    intro groups chosen hf _
    rw [List.forall₂_nil_left_iff] at hf
    subst hf
    simp [searchNodes]
  | cons s ext' ih =>
    intro groups chosen hf hInv
    rcases List.forall₂_cons_left_iff.mp hf with ⟨g, gs, hsg, hf', rfl⟩
    have hasc : (chosen ++ [s]) ++ ext' = chosen ++ (s :: ext') := by simp
    have hpw : pairwiseOk cfg s chosen = true := by
      rw [pairwiseOk, List.all_eq_true]
      intro t ht
      have hp := hInv.1
      rw [List.pairwise_append] at hp
      have := hp.2.2 t ht s (by simp)
      rwa [compatible_symm]
    have hdc : dayCountOk cfg (chosen ++ [s]) = true := by
      rw [dayCountOk, decide_eq_true_eq]
      refine le_trans (Finset.card_le_card ?_) hInv.2
      refine daysUnion_subset_of_sublist ?_
      intro x hx
      simp only [List.mem_append, List.mem_cons, List.mem_singleton] at hx ⊢
      tauto
    simp only [searchNodes, List.mem_cons, List.mem_flatMap, List.mem_filter,
      Bool.and_eq_true]
    refine Or.inr ⟨s, ⟨hsg, hpw, hdc⟩, ?_⟩
    have := ih gs (chosen ++ [s]) hf' (by rwa [hasc])
    rwa [hasc] at this

theorem Inv_nil (cfg : Config) : Inv cfg [] := by
  constructor
  · exact List.Pairwise.nil
  · simp [daysUnion]

/-- Modelled from the spec: the complete schedules found by the search
over the given course groups — the visited assignments that cover every
group. -/
def completes (cfg : Config) (gs : List (List Section)) :
    List (List Section) :=
  (searchNodes cfg gs []).filter (fun a => a.length == gs.length)

/-- Characterization of the complete schedules: an assignment is
returned iff it picks one section from each group, in group order, is
pairwise compatible, and satisfies the day-count bound. -/
theorem completes_iff (cfg : Config) (gs : List (List Section))
    (res : List Section) :
    res ∈ completes cfg gs ↔
      List.Forall₂ (fun s g => s ∈ g) res gs ∧ Inv cfg res := by
  constructor
  · intro h
    rw [completes, List.mem_filter] at h
    obtain ⟨hmem, hlen⟩ := h
    have hlen' : res.length = gs.length := by
      simpa using hlen
    rcases searchNodes_shape cfg gs [] res hmem with
      ⟨ext, gs₁, rest, hgr, hre, hf⟩
    have hre' : res = ext := by simpa using hre
    subst hre'
    have h1 : res.length = gs₁.length := hf.length_eq
    have h2 : gs.length = gs₁.length + rest.length := by
      simp [hgr]
    have hrest : rest = [] := by
      apply List.eq_nil_of_length_eq_zero
      omega
    subst hrest
    rw [List.append_nil] at hgr
    subst hgr
    exact ⟨hf, searchNodes_inv cfg gs [] (Inv_nil cfg) res hmem⟩
  · rintro ⟨hf, hInv⟩
    rw [completes, List.mem_filter]
    constructor
    · have := searchNodes_complete cfg res gs [] hf (by simpa using hInv)
      simpa using this
    · simp [hf.length_eq]

/-- If a relation matches a list to the right-hand list elementwise,
every member of the right-hand list is matched by some member. -/
theorem forall₂_exists_of_mem_right {α β : Type _} {R : α → β → Prop}
    {l₁ : List α} {l₂ : List β} (h : List.Forall₂ R l₁ l₂) {b : β}
    (hb : b ∈ l₂) : ∃ a ∈ l₁, R a b := by
  induction h with
  | nil => simp at hb
  | cons hr _ ih =>
    rcases List.mem_cons.mp hb with rfl | hb'
    · exact ⟨_, by simp, hr⟩
    · rcases ih hb' with ⟨a, ha, har⟩
      exact ⟨a, by simp [ha], har⟩

/-- Hour component of a section's start time. -/
def startHour (s : Section) : Nat := s.start_time / 60

/-- Modelled from the spec: day-count bonus (spec §4.3): +100 when the
assignment uses exactly 4 distinct days, +50 when exactly 5, else 0. -/
def dayBonus (a : List Section) : Int :=
  if (daysUnion a).card = 4 then 100
  else if (daysUnion a).card = 5 then 50
  else 0

/-- Modelled from the spec: early-lab penalty (spec §4.3): for every LAB
section starting before 11:00, the quantity (11 - start hour),
accumulated over the assignment. -/
def earlyLabPenalty (a : List Section) : Int :=
  a.foldr (fun s acc =>
    if s.kind = Kind.LAB ∧ s.start_time < 660
    then acc + (11 - (startHour s : Int))
    else acc) 0

/-- All six day symbols. -/
def dayList : List Day := [Day.S, Day.M, Day.T, Day.W, Day.R, Day.A]

/-- The sections of the assignment meeting on a given day. -/
def sectionsOnDay (a : List Section) (d : Day) : List Section :=
  a.filter (fun s => decide (d ∈ s.days))

/-- Sort a day's sections by ascending start time. -/
def sortByStart (l : List Section) : List Section :=
  List.insertionSort (fun s t => s.start_time ≤ t.start_time) l

/-- Total gap in minutes between consecutive sections of one day. -/
def gaps : List Section → Int
  | [] => 0
  | [_] => 0
  | s :: t :: rest =>
      ((t.start_time : Int) - (s.end_time : Int)) + gaps (t :: rest)

/-- Modelled from the spec: idle-time penalty (spec §4.3): for each day,
sort that day's sections by start time and accumulate the gaps between
consecutive sections, summed over the week. -/
def idleMinutes (a : List Section) : Int :=
  dayList.foldr (fun d acc => gaps (sortByStart (sectionsOnDay a d)) + acc) 0

/-- Modelled from the spec: the score of an assignment (spec §4.3):
day-count bonus minus early-lab penalty minus idle-time penalty. -/
def score (a : List Section) : Int :=
  dayBonus a - earlyLabPenalty a - idleMinutes a

/-- Modelled from the spec: canonical key of an assignment (spec §4.4):
the sorted list of (course, section) pairs. -/
def keyOf (a : List Section) : List (String × String) :=
  List.insertionSort (fun x y => x.1 < y.1 ∨ (x.1 = y.1 ∧ x.2 ≤ y.2))
    (a.map (fun s => (s.course_code, s.section_number)))

/-- Lexicographic comparison of canonical keys. -/
def keyLe : List (String × String) → List (String × String) → Bool
  | [], _ => true
  | _ :: _, [] => false
  | x :: xs, y :: ys =>
      if x = y then keyLe xs ys
      else decide (x.1 < y.1 ∨ (x.1 = y.1 ∧ x.2 ≤ y.2))

/-- Modelled from the spec: ranking order (spec §4.4): descending score,
ties broken by the canonical key. -/
def rankRel (a b : List Section) : Prop :=
  score b < score a ∨ (score a = score b ∧ keyLe (keyOf a) (keyOf b) = true)

instance : DecidableRel rankRel := fun a b => by
  unfold rankRel
  infer_instance

/-- Modelled from the spec: the per-course candidate list — the catalog
sections of that course that pass the unary filter (spec §4.2 step 1). -/
def candidatesFor (catalog : List Section) (cfg : Config)
    (course : String) : List Section :=
  catalog.filter (fun s => s.course_code == course && unaryOk cfg s)

/-- The per-course candidate groups in `required_courses` order. -/
def genGroups (catalog : List Section) (cfg : Config) :
    List (String × List Section) :=
  cfg.required_courses.map (fun c => (c, candidatesFor catalog cfg c))

/-- Most-constrained-first: ascending candidate count. -/
def byCount (a b : String × List Section) : Prop :=
  a.2.length ≤ b.2.length

instance : DecidableRel byCount := fun a b => by
  unfold byCount
  infer_instance

/-- Modelled from the spec: the candidate groups reordered by ascending
candidate count (spec §4.2 step 2). -/
def genOrdered (catalog : List Section) (cfg : Config) :
    List (String × List Section) :=
  List.insertionSort byCount (genGroups catalog cfg)

/-- The candidate lists, in search order. -/
def genGroupLists (catalog : List Section) (cfg : Config) :
    List (List Section) :=
  (genOrdered catalog cfg).map (fun g => g.2)

/-- All assignments visited by the search for this run. -/
def genNodes (catalog : List Section) (cfg : Config) :
    List (List Section) :=
  searchNodes cfg (genGroupLists catalog cfg) []

/-- The complete schedules found for this run. -/
def genComplete (catalog : List Section) (cfg : Config) :
    List (List Section) :=
  completes cfg (genGroupLists catalog cfg)

/-- Length of the longest assignment. -/
def maxLen (l : List (List Section)) : Nat :=
  l.foldr (fun a m => max a.length m) 0

/-- The assignments covering the greatest number of courses. -/
def bestOf (l : List (List Section)) : List (List Section) :=
  l.filter (fun a => a.length == maxLen l)

/-- Modelled from the spec: the result of one generation run (spec §6);
`fallbackFlag` models `stats.partial` and `unsatisfiable` models
`stats.unsatisfiable_courses`. -/
structure GenResult where
  schedules : List (List Section)
  bestIncomplete : List (List Section)
  unsatisfiable : List String
  fallbackFlag : Bool

/-- Modelled from the spec: one generation run (spec §4.2 and §6):
unary filtering per course, most-constrained-first ordering,
backtracking search, ranking of the complete schedules (top 10), and
best-effort fallback when no complete schedule exists. -/
def generate (catalog : List Section) (cfg : Config) : GenResult :=
  { schedules := (List.insertionSort rankRel (genComplete catalog cfg)).take 10
    bestIncomplete :=
      if (genComplete catalog cfg).isEmpty
      then bestOf (genNodes catalog cfg) else []
    unsatisfiable :=
      ((genGroups catalog cfg).filter (fun g => g.2.isEmpty)).map
        (fun g => g.1)
    fallbackFlag := (genComplete catalog cfg).isEmpty }

theorem mem_schedules_mem_genComplete {catalog : List Section}
    {cfg : Config} {res : List Section}
    (h : res ∈ (generate catalog cfg).schedules) :
    res ∈ genComplete catalog cfg := by
  simp only [generate] at h
  exact (List.mem_insertionSort rankRel).mp (List.take_subset 10 _ h)

/-- C2: every complete schedule returned by `generate` is free of
pairwise conflicts: any two distinct chosen sections do not conflict,
in either orientation. -/
theorem generate_no_conflicts (catalog : List Section) (cfg : Config) :
    ∀ res ∈ (generate catalog cfg).schedules,
      res.Pairwise (fun a b => conflicts a b = false ∧ conflicts b a = false) := by
  intro res hres
  have hmem := mem_schedules_mem_genComplete hres
  have hInv := ((completes_iff cfg _ res).mp hmem).2
  refine hInv.1.imp ?_
  intro a b hab
  have h1 : conflicts a b = false := by
    rw [compatible, Bool.and_eq_true, Bool.not_eq_true'] at hab
    exact hab.1
  exact ⟨h1, (conflicts_symm b a).trans h1⟩

/-- Concrete catalog for the witnesses: a single CSE327 lecture. -/
def wCatalog : List Section := [wSecA]

/-- Concrete configuration for the witnesses: requires the one course in
`wCatalog`. -/
def wCfg : Config :=
  { required_courses := ["CSE327"]
    min_start_time := 660
    allowed_day_patterns := [{Day.S, Day.T}, {Day.M, Day.W}]
    paired_course_rules := [("CSE332", "CSE332L")]
    instructor_rules := [("CSE327", ⟨["NBM"], ["1", "7"]⟩)]
    max_distinct_days := 5
    exclude_evening := true
    evening_threshold := 1080
    forbidden_day := Day.A
    forbidden_lab_start_time := 480 }

theorem generate_no_conflicts_witness :
    ([wSecA] : List Section).Pairwise
      (fun a b => conflicts a b = false ∧ conflicts b a = false) :=
  generate_no_conflicts wCatalog wCfg [wSecA] (by decide)

/-- C3: every candidate returned by `generate` — ranked complete
schedule or best-effort fallback — uses at most `max_distinct_days`
distinct days. -/
theorem generate_day_bound (catalog : List Section) (cfg : Config) :
    ∀ res : List Section,
      (res ∈ (generate catalog cfg).schedules ∨
       res ∈ (generate catalog cfg).bestIncomplete) →
      (daysUnion res).card ≤ cfg.max_distinct_days := by
  intro res hres
  rcases hres with hres | hres
  · exact ((completes_iff cfg _ res).mp
      (mem_schedules_mem_genComplete hres)).2.2
  · simp only [generate] at hres
    by_cases hempty : (genComplete catalog cfg).isEmpty
    · rw [if_pos hempty] at hres
      have hnode : res ∈ genNodes catalog cfg :=
        List.mem_of_mem_filter hres
      exact (searchNodes_inv cfg _ [] (Inv_nil cfg) res hnode).2
    · rw [if_neg hempty] at hres
      simp at hres

theorem generate_day_bound_witness :
    (daysUnion [wSecA]).card ≤ wCfg.max_distinct_days :=
  generate_day_bound wCatalog wCfg [wSecA] (Or.inl (by decide))

theorem searchNodes_ne_nil (cfg : Config) (groups : List (List Section))
    (chosen : List Section) : searchNodes cfg groups chosen ≠ [] := by
  cases groups <;> simp [searchNodes]

theorem exists_maxLen_mem (l : List (List Section)) (h : l ≠ []) :
    ∃ x ∈ l, x.length = maxLen l := by
  induction l with
  | nil => exact absurd rfl h
  | cons a l' ih =>
    have hm : maxLen (a :: l') = max a.length (maxLen l') := rfl
    cases l' with
    | nil => exact ⟨a, by simp, by simp [maxLen]⟩
    | cons b t =>
      rcases ih (by simp) with ⟨x, hx, hxl⟩
      by_cases hc : maxLen (b :: t) ≤ a.length
      · exact ⟨a, by simp, by rw [hm]; omega⟩
      · exact ⟨x, List.mem_cons_of_mem a hx, by rw [hm]; omega⟩

/-- C5: when some required course has no candidates after unary
filtering, `generate` still returns a value: no complete schedules, the
fallback flag set, the course recorded as unsatisfiable, and a
non-empty set of best-effort assignments. -/
theorem generate_unsat (catalog : List Section) (cfg : Config)
    (c : String) (h1 : c ∈ cfg.required_courses)
    (h2 : candidatesFor catalog cfg c = []) :
    (generate catalog cfg).schedules = [] ∧
    (generate catalog cfg).fallbackFlag = true ∧
    c ∈ (generate catalog cfg).unsatisfiable ∧
    (generate catalog cfg).bestIncomplete ≠ [] := by
  have hmemg : (c, ([] : List Section)) ∈ genGroups catalog cfg := by
    rw [genGroups, List.mem_map]
    exact ⟨c, h1, by rw [h2]⟩
  have hmemo : (c, ([] : List Section)) ∈ genOrdered catalog cfg :=
    (List.perm_insertionSort byCount _).symm.subset hmemg
  have hmeml : ([] : List Section) ∈ genGroupLists catalog cfg := by
    rw [genGroupLists, List.mem_map]
    exact ⟨(c, []), hmemo, rfl⟩
  have hempty : genComplete catalog cfg = [] := by
    rw [List.eq_nil_iff_forall_not_mem]
    intro res hres
    have hf := ((completes_iff cfg _ res).mp hres).1
    rcases forall₂_exists_of_mem_right hf hmeml with ⟨s, _, hs⟩
    simp at hs
  refine ⟨?_, ?_, ?_, ?_⟩
  · simp [generate, hempty]
  · simp [generate, hempty]
  · simp only [generate, List.mem_map]
    exact ⟨(c, []), List.mem_filter.mpr ⟨hmemg, by simp⟩, rfl⟩
  · simp only [generate, hempty, List.isEmpty_nil, if_pos]
    rcases exists_maxLen_mem (genNodes catalog cfg)
        (searchNodes_ne_nil cfg _ []) with ⟨x, hx, hxl⟩
    exact List.ne_nil_of_mem
      (List.mem_filter.mpr ⟨hx, by simp [hxl]⟩)

/-- Configuration for the C5 witness: requires a course absent from the
(empty) catalog. -/
def wCfgUnsat : Config :=
  { wCfg with required_courses := ["BIO103"] }

theorem generate_unsat_witness :
    (generate [] wCfgUnsat).schedules = [] ∧
    (generate [] wCfgUnsat).fallbackFlag = true ∧
    "BIO103" ∈ (generate [] wCfgUnsat).unsatisfiable ∧
    (generate [] wCfgUnsat).bestIncomplete ≠ [] :=
  generate_unsat [] wCfgUnsat "BIO103" (by decide) rfl

theorem earlyLabPenalty_eq (a : List Section) :
    earlyLabPenalty a =
      ((a.filter (fun s =>
          s.kind == Kind.LAB && decide (s.start_time < 660))).map
        (fun s => (11 : Int) - startHour s)).sum := by
  induction a with
  | nil => simp [earlyLabPenalty]
  | cons s t ih =>
    have hE : earlyLabPenalty (s :: t) =
        if s.kind = Kind.LAB ∧ s.start_time < 660
        then earlyLabPenalty t + (11 - (startHour s : Int))
        else earlyLabPenalty t := rfl
    by_cases h : s.kind = Kind.LAB ∧ s.start_time < 660
    · rw [hE, if_pos h, ih,
        List.filter_cons_of_pos (by simp [h.1, h.2]),
        List.map_cons, List.sum_cons]
      ring
    · rw [hE, if_neg h, ih, List.filter_cons_of_neg]
      simp only [Bool.and_eq_true, beq_iff_eq, decide_eq_true_eq]
      exact h

theorem foldr_add_eq_sum_map {α : Type _} (f : α → Int) (l : List α) :
    l.foldr (fun x acc => f x + acc) 0 = (l.map f).sum := by
  induction l <;> simp [*]

theorem sectionsOnDay_eq_nil {a : List Section} {d : Day}
    (h : d ∉ daysUnion a) : sectionsOnDay a d = [] := by
  rw [sectionsOnDay, List.filter_eq_nil_iff]
  intro s hs
  simp only [decide_eq_true_eq]
  intro hd
  exact h (mem_daysUnion.mpr ⟨s, hs, hd⟩)

theorem sum_map_filter_of_zero {α : Type _} (f : α → Int) (p : α → Bool)
    (l : List α) (h : ∀ x ∈ l, p x = false → f x = 0) :
    ((l.filter p).map f).sum = (l.map f).sum := by
  induction l with
  | nil => simp
  | cons x t ih =>
    have iht := ih (fun y hy => h y (List.mem_cons_of_mem x hy))
    cases hp : p x with
    | true =>
      rw [List.filter_cons_of_pos hp, List.map_cons, List.sum_cons,
        List.map_cons, List.sum_cons, iht]
    | false =>
      rw [List.filter_cons_of_neg (by simp [hp]), List.map_cons,
        List.sum_cons, iht, h x (by simp) hp, zero_add]

theorem idleMinutes_eq (a : List Section) :
    idleMinutes a =
      ((dayList.filter (fun d => decide (d ∈ daysUnion a))).map
        (fun d => gaps (sortByStart (sectionsOnDay a d)))).sum := by
  rw [idleMinutes, foldr_add_eq_sum_map, sum_map_filter_of_zero]
  intro d _ hd
  rw [sectionsOnDay_eq_nil (by simpa using hd)]
  rfl

/-- C6: the score of an assignment is the day-count bonus (+100 at
exactly 4 distinct days, +50 at exactly 5, else 0), minus for each LAB
section starting before 11:00 the quantity (11 - start hour), minus the
total idle minutes over the days present, with each day's sections
sorted by start time. -/
theorem score_spec (a : List Section) :
    score a =
      (if (daysUnion a).card = 4 then 100
       else if (daysUnion a).card = 5 then 50 else 0)
      - ((a.filter (fun s =>
            s.kind == Kind.LAB && decide (s.start_time < 660))).map
          (fun s => (11 : Int) - startHour s)).sum
      - ((dayList.filter (fun d => decide (d ∈ daysUnion a))).map
          (fun d => gaps (sortByStart (sectionsOnDay a d)))).sum := by
  rw [score, dayBonus, earlyLabPenalty_eq, idleMinutes_eq]

/-- C7: `generate` and the scorer are deterministic: identical inputs
give identical outputs. -/
theorem generate_deterministic (cat1 cat2 : List Section)
    (cfg1 cfg2 : Config) (hc : cat1 = cat2) (hf : cfg1 = cfg2) :
    generate cat1 cfg1 = generate cat2 cfg2 ∧
    ∀ a b : List Section, a = b → score a = score b := by
  subst hc
  subst hf
  exact ⟨rfl, fun a b h => by rw [h]⟩

theorem generate_deterministic_witness :
    generate wCatalog wCfg = generate wCatalog wCfg :=
  (generate_deterministic wCatalog wCatalog wCfg wCfg rfl rfl).1

/-- Transport of an elementwise matching along a permutation of the
right-hand list: the matched list can be permuted accordingly. -/
theorem forall₂_of_perm_right {α β : Type _} {R : α → β → Prop}
    {l₂ l₂' : List β} (hp : l₂.Perm l₂') :
    ∀ {l₁ : List α}, List.Forall₂ R l₁ l₂ →
      ∃ l₁', l₁.Perm l₁' ∧ List.Forall₂ R l₁' l₂' := by
  induction hp with
  | nil =>
    intro l₁ hf
    rw [List.forall₂_nil_right_iff] at hf
    subst hf
    exact ⟨[], List.Perm.refl [], List.Forall₂.nil⟩
  | cons x _ ih =>
    intro l₁ hf
    rcases List.forall₂_cons_right_iff.mp hf with ⟨a, as, hax, hf', rfl⟩
    rcases ih hf' with ⟨as', hpm, hf''⟩
    exact ⟨a :: as', hpm.cons a, List.Forall₂.cons hax hf''⟩
  | swap x y l =>
    intro l₁ hf
    rcases List.forall₂_cons_right_iff.mp hf with ⟨a, as, hay, hf', rfl⟩
    rcases List.forall₂_cons_right_iff.mp hf' with ⟨b, bs, hbx, hf'', rfl⟩
    exact ⟨b :: a :: bs, List.Perm.swap b a bs,
      List.Forall₂.cons hbx (List.Forall₂.cons hay hf'')⟩
  | trans _ _ ih₁ ih₂ =>
    intro l₁ hf
    rcases ih₁ hf with ⟨m, hm, hf'⟩
    rcases ih₂ hf' with ⟨m', hm', hf''⟩
    exact ⟨m', hm.trans hm', hf''⟩

theorem daysUnion_perm {l l' : List Section} (h : l.Perm l') :
    daysUnion l = daysUnion l' := by
  apply Finset.ext
  intro d
  simp only [mem_daysUnion]
  exact ⟨fun ⟨s, hs, hd⟩ => ⟨s, h.subset hs, hd⟩,
    fun ⟨s, hs, hd⟩ => ⟨s, h.symm.subset hs, hd⟩⟩

theorem compat_symmetric (cfg : Config) :
    Symmetric (fun a b : Section => compatible cfg a b = true) := by
  intro a b hab
  have hab' : compatible cfg a b = true := hab
  show compatible cfg b a = true
  rwa [compatible_symm cfg b a]

theorem Inv_perm {cfg : Config} {l l' : List Section} (h : l.Perm l')
    (hi : Inv cfg l) : Inv cfg l' := by
  exact ⟨(h.pairwise_iff (fun {x y} hxy => compat_symmetric cfg hxy)).mp hi.1,
    by rw [← daysUnion_perm h]; exact hi.2⟩

/-- C8: reordering the course groups most-constrained-first does not
change the set of complete valid schedules: each complete schedule
found with the heuristic ordering is a permutation of one found with
the original `required_courses` ordering, and vice versa. -/
theorem search_order_irrelevant (catalog : List Section) (cfg : Config)
    (res : List Section) :
    (res ∈ completes cfg (genGroupLists catalog cfg) →
      ∃ res2, res2 ∈ completes cfg
          ((genGroups catalog cfg).map (fun g => g.2)) ∧ res.Perm res2) ∧
    (res ∈ completes cfg ((genGroups catalog cfg).map (fun g => g.2)) →
      ∃ res2, res2 ∈ completes cfg (genGroupLists catalog cfg) ∧
        res.Perm res2) := by
  have hperm : (genGroupLists catalog cfg).Perm
      ((genGroups catalog cfg).map (fun g => g.2)) :=
    (List.perm_insertionSort byCount _).map _
  constructor
  · intro h
    obtain ⟨hf, hInv⟩ := (completes_iff cfg _ res).mp h
    rcases forall₂_of_perm_right hperm hf with ⟨res2, hp, hf2⟩
    exact ⟨res2, (completes_iff cfg _ res2).mpr ⟨hf2, Inv_perm hp hInv⟩, hp⟩
  · intro h
    obtain ⟨hf, hInv⟩ := (completes_iff cfg _ res).mp h
    rcases forall₂_of_perm_right hperm.symm hf with ⟨res2, hp, hf2⟩
    exact ⟨res2, (completes_iff cfg _ res2).mpr ⟨hf2, Inv_perm hp hInv⟩, hp⟩

theorem search_order_irrelevant_witness :
    ∃ res2, res2 ∈ completes wCfg
        ((genGroups wCatalog wCfg).map (fun g => g.2)) ∧
      ([wSecA] : List Section).Perm res2 :=
  (search_order_irrelevant wCatalog wCfg [wSecA]).1 (by decide)

/-- The constraints object handled by
`src/frontend/src/components/CourseConstraintsForm.js`. -/
structure FormConstraints where
  required_courses : List String
  start_time_constraint : String
  day_pattern : List String
  exclude_evening_classes : Bool
  max_days : Nat
  instructor_preferences : List (String × List String)
deriving DecidableEq

/-- From `CourseConstraintsForm.js` (`validateForm`): collects an error
key when `required_courses` is empty and another when `day_pattern` is
empty, and reports validity iff no error key was collected. -/
def validateForm (c : FormConstraints) : Bool :=
  let newErrors : List String :=
    (if c.required_courses.length = 0 then ["required_courses"] else []) ++
    (if c.day_pattern.length = 0 then ["day_pattern"] else [])
  newErrors.length == 0

/-- From `CourseConstraintsForm.js` (`handleSubmit`): invokes
`onSubmit(constraints)` — modelled as `some constraints` — exactly when
`validateForm` returns true; otherwise no generation is attempted
(`none`). -/
def handleSubmit (c : FormConstraints) : Option FormConstraints :=
  if validateForm c then some c else none

/-- C9: the form submits (and hence generation starts) iff validation
passes, and validation fails whenever the required-course list or the
day-pattern list is empty; in particular such configurations are
rejected before any search begins. -/
theorem handleSubmit_spec (c : FormConstraints) :
    (handleSubmit c = some c ↔ validateForm c = true) ∧
    (validateForm c = true ↔
      c.required_courses ≠ [] ∧ c.day_pattern ≠ []) ∧
    (c.required_courses = [] ∨ c.day_pattern = [] →
      handleSubmit c = none) := by
  have hv : validateForm c = true ↔
      c.required_courses ≠ [] ∧ c.day_pattern ≠ [] := by
    simp only [validateForm]
    by_cases h1 : c.required_courses = [] <;>
      by_cases h2 : c.day_pattern = [] <;>
        simp [List.length_eq_zero, h1, h2]
  refine ⟨?_, hv, ?_⟩
  · rw [handleSubmit]
    by_cases h : validateForm c = true <;> simp [h]
  · intro h
    rw [handleSubmit, if_neg]
    intro hvt
    rcases (hv.mp hvt) with ⟨hr, hd⟩
    rcases h with h | h
    · exact hr h
    · exact hd h

/-- Concrete form with no selected courses, for the C9 witness. -/
def wForm : FormConstraints :=
  { required_courses := []
    start_time_constraint := "11:00 AM"
    day_pattern := ["ST", "MW"]
    exclude_evening_classes := true
    max_days := 4
    instructor_preferences := [] }

theorem handleSubmit_spec_witness : handleSubmit wForm = none :=
  (handleSubmit_spec wForm).2.2 (Or.inl rfl)

/-- From `Dashboard.js` (`toggleFavorite`): if the index is already a
favorite it is removed (filter keeps indices different from it),
otherwise it is appended. -/
def toggleFavorite (i : Nat) (favs : List Nat) : List Nat :=
  if favs.contains i then favs.filter (fun j => j != i) else favs ++ [i]

/-- C10: `toggleFavorite` toggles membership of the given index, leaves
every other index's membership unchanged, and applied twice restores
the original membership. -/
theorem toggleFavorite_spec (favs : List Nat) (i : Nat) :
    (i ∈ toggleFavorite i favs ↔ i ∉ favs) ∧
    (∀ j, j ≠ i → (j ∈ toggleFavorite i favs ↔ j ∈ favs)) ∧
    (i ∈ toggleFavorite i (toggleFavorite i favs) ↔ i ∈ favs) := by
  have hmem : ∀ l : List Nat,
      (i ∈ toggleFavorite i l ↔ i ∉ l) := by
    intro l
    rw [toggleFavorite]
    by_cases h : i ∈ l
    · rw [if_pos (by simpa [List.elem_iff] using h)]
      simp [List.mem_filter, h]
    · rw [if_neg (by simpa [List.elem_iff] using h)]
      simp [h]
  refine ⟨hmem favs, ?_, ?_⟩
  · intro j hj
    rw [toggleFavorite]
    by_cases h : i ∈ favs
    · rw [if_pos (by simpa [List.elem_iff] using h)]
      simp [List.mem_filter, hj]
    · rw [if_neg (by simpa [List.elem_iff] using h)]
      simp [hj]
  · rw [hmem (toggleFavorite i favs), hmem favs, not_not]

theorem toggleFavorite_spec_witness :
    (0 ∈ toggleFavorite 1 [0] ↔ 0 ∈ [0]) :=
  (toggleFavorite_spec [0] 1).2.1 0 (by decide)

end CourseFinder
